import Mathlib

/-!
# Verification of the prophetx-data-explorer core

Shallow embedding of the market-normalization / selection-index engine,
the odds-conversion utilities and the request orchestrator of the
repository, together with proofs about the properties its specification
states.

Modelling conventions:
* JavaScript `Map` objects are modelled as insertion-ordered association
  lists (`OMap`): `oset` replaces the value in place when the key exists
  (keeping its position) and appends otherwise, exactly like `Map.set`;
  `ovalues` is `Map.values()` in insertion order.
* JavaScript numbers are modelled as exact rationals (`ℚ`); `Math.round`
  is Mathlib's `round` (both round half toward +∞); overflow to
  `Infinity` does not occur in the rational model.
* Optional / nullable fields are `Option`; `undefined` and `null` are
  collapsed to `none` wherever the source treats them alike (`??`,
  `?.` chains).
* Fallible functions (`throw`) return `Option` / structured results.
-/

namespace PXDE

/-! ## Insertion-ordered string-keyed maps (JavaScript `Map` model) -/

/-- Association list with JavaScript `Map` semantics: insertion order is
significant, `oset` updates in place. -/
abbrev OMap (α : Type) : Type := List (String × α)

/-- `Map.get`: first (and, with `oset`-built maps, only) binding of `k`. -/
def oget {α : Type} : OMap α → String → Option α
  | [], _ => none
  | (k', v) :: m, k => if k' = k then some v else oget m k

/-- `Map.set`: replace in place if the key is present, else append. -/
def oset {α : Type} : OMap α → String → α → OMap α
  | [], k, v => [(k, v)]
  | (k', v') :: m, k, v =>
      if k' = k then (k', v) :: m else (k', v') :: oset m k v

/-- `Map.values()`, in insertion order. -/
def ovalues {α : Type} (m : OMap α) : List α := m.map (·.2)

/-- The last element of a list satisfying `p`, if any (used to state which
record survives repeated `Map.set` calls under one key). -/
def lastWith {α : Type} (p : α → Bool) : List α → Option α
  | [] => none
  | a :: l =>
      match lastWith p l with
      | some r => some r
      | none => if p a then some a else none

/-! ## JavaScript number rendering / parsing (subset model)

`line` values and odds flow through `String(...)` and `Number(...)` in the
source.  JavaScript numbers are 64-bit floats printed as the shortest
round-trip decimal; we model them as exact rationals with an exact decimal
printer (fuel-bounded) and a decimal parser.  The subset (optional sign,
decimal digits, at most one dot; empty string parses as `0`) covers the
values the engine produces; hex / exponent / `Infinity` literals are
outside the model.  No claim below depends on the printer's digits. -/

/-- Fuel-bounded exact decimal expansion of a rational in `[0, 1)`. -/
def decDigits : Nat → ℚ → String
  | 0, _ => ""
  | fuel + 1, q =>
      if q = 0 then ""
      else
        let d := ⌊q * 10⌋.toNat
        toString d ++ decDigits fuel (q * 10 - (d : ℚ))

/-- `String(n)` for a numeric value (model, see section comment). -/
def qToString (q : ℚ) : String :=
  let sgn := if q < 0 then "-" else ""
  let a := |q|
  let ip := ⌊a⌋.toNat
  let fr := a - (⌊a⌋ : ℚ)
  sgn ++ toString ip ++ (if fr = 0 then "" else "." ++ decDigits 17 fr)

/-- `s.trim()` on the character list (both ends, whitespace). -/
def jsTrimList (cs : List Char) : List Char :=
  ((cs.dropWhile Char.isWhitespace).reverse.dropWhile Char.isWhitespace).reverse

/-- Split a character list at every `'.'` (the `split` used by the decimal
parser; `[]` splits to `[[]]` like `"".split` in the library). -/
def splitOnDot : List Char → List (List Char)
  | [] => [[]]
  | c :: cs =>
      if c = '.' then [] :: splitOnDot cs
      else
        match splitOnDot cs with
        | h :: t => (c :: h) :: t
        | [] => [[c]]

/-- Value of a digit string (most significant first), `0` for `[]`. -/
def jsDigitsVal (cs : List Char) : Nat :=
  cs.foldl (fun a c => a * 10 + (c.toNat - 48)) 0

/-- Unsigned decimal literal: digits with at most one dot, `NaN` = `none`. -/
def jsParseNumberCore (t : List Char) : Option ℚ :=
  match splitOnDot t with
  | [ip] =>
      if ip ≠ [] ∧ ip.all Char.isDigit then some (jsDigitsVal ip)
      else none
  | [ip, fp] =>
      if (ip ≠ [] ∨ fp ≠ []) ∧ ip.all Char.isDigit ∧ fp.all Char.isDigit then
        some ((jsDigitsVal ip : ℚ) + (jsDigitsVal fp : ℚ) / (10 : ℚ) ^ fp.length)
      else none
  | _ => none

/-- `Number(s)` (model, see section comment): `NaN` is `none`, `""` is `0`. -/
def jsParseNumber (s : String) : Option ℚ :=
  let t := jsTrimList s.toList
  if t = [] then some 0
  else if t.head? = some '-' then (jsParseNumberCore (t.drop 1)).map (fun q => -q)
  else if t.head? = some '+' then jsParseNumberCore (t.drop 1)
  else jsParseNumberCore t

/-! ## Odds Conversion Module (`src/utils/betting-utils.ts`) -/

/-- `americanToDecimal`: throws (`none`) on zero; `Number.isFinite` always
holds in the rational model. -/
def americanToDecimal (a : ℚ) : Option ℚ :=
  if a = 0 then none
  else some (if 0 < a then 1 + a / 100 else 1 + 100 / |a|)

/-- `decimalToAmerican`: throws (`none`) on `d ≤ 1`; `Math.round` is
Mathlib's `round` (both round halves toward `+∞`). -/
def decimalToAmerican (d : ℚ) : Option ℤ :=
  if d ≤ 1 then none
  else some (if 2 ≤ d then round ((d - 1) * 100) else round (-100 / (d - 1)))

/-- `parseAmericanString`: trim, note an explicit leading minus, strip every
character that is not a digit or a dot, `Number`-parse the rest, reject
`NaN`/zero, round. -/
def parseAmericanString (s : String) : Option ℤ :=
  let trimmed := jsTrimList s.toList
  let sign : ℤ := if trimmed.head? = some '-' then -1 else 1
  let cleaned := String.mk (trimmed.filter (fun c => c.isDigit || c == '.'))
  match jsParseNumber cleaned with
  | none => none
  | some n => if n = 0 then none else some (sign * round n)

/-- The scan of `clampToLadder`: carry `(best, diff)`, replace only on a
strictly smaller distance. -/
def clampFold (x : ℚ) (l : List ℚ) (best : ℚ × ℚ) : ℚ × ℚ :=
  l.foldl (fun b p => if |x - p| < b.2 then (p, |x - p|) else b) best

/-- `clampToLadder`: empty ladder returns the input unchanged; otherwise a
left-to-right scan over the whole ladder starting from
`(ladder[0], |x - ladder[0]|)`, keeping the first tick of strictly
smallest distance. -/
def clampToLadder (decimalPrice : ℚ) (ladder : List ℚ) : ℚ :=
  match ladder with
  | [] => decimalPrice
  | b :: _ => (clampFold decimalPrice ladder (b, |decimalPrice - b|)).1

/-! ## Data model (`src/services/selection-cache.ts` / `prophetx-api`)

`TreeNode.children?: TreeNode[]` is modelled as a plain list (`undefined`
behaves like `[]` in every loop of the source).  A `line` value has type
`number | string | null` in the source and is modelled by `LineVal`;
`null`/`undefined` collapse to `none`.  A raw selection entry in a
payload is a record of optional fields (`RawSel`); literal `null` entries
inside payload arrays are outside the model. -/

/-- A JavaScript `number | string` line value. -/
inductive LineVal where
  | num (q : ℚ)
  | str (s : String)
deriving DecidableEq

/-- `String(v)` for a line value. -/
def jsStringOfLine : LineVal → String
  | .num q => qToString q
  | .str s => s

/-- JavaScript truthiness of a `number | string` value. -/
def lineTruthy : LineVal → Bool
  | .num q => q != 0
  | .str s => s != ""

/-- JavaScript truthiness of an optional string (`undefined`, `null` and
`""` are falsy). -/
def jsTruthyS : Option String → Bool
  | some s => s != ""
  | none => false

/-- `a || b` for an optional string `a` and a string default `b`. -/
def jsOr (o : Option String) (d : String) : String :=
  match o with
  | some s => if s = "" then d else s
  | none => d

/-- The `data` payload of a tree node. -/
structure NodeData where
  scheduled : Option String := none
  odds : Option ℚ := none
  stake : Option ℚ := none
  status : Option String := none
  line : Option LineVal := none
  display_odds : Option String := none
  line_id : Option String := none
deriving DecidableEq

inductive NodeType where
  | tournament
  | event
  | category
  | market
  | selection
deriving DecidableEq

/-- One level of the catalog tree. -/
inductive TreeNode where
  | mk (id : String) (name : String) (type : NodeType)
      (data : Option NodeData) (children : List TreeNode)

def TreeNode.id : TreeNode → String
  | .mk i _ _ _ _ => i

def TreeNode.name : TreeNode → String
  | .mk _ n _ _ _ => n

def TreeNode.type : TreeNode → NodeType
  | .mk _ _ t _ _ => t

def TreeNode.data : TreeNode → Option NodeData
  | .mk _ _ _ d _ => d

def TreeNode.children : TreeNode → List TreeNode
  | .mk _ _ _ _ c => c

/-- A wager-eligible leaf in indexed form. -/
structure SelectionRecord where
  line_id : String
  internalId : String
  name : String
  odds : Option ℚ
  stake : Option ℚ
  line : Option LineVal
  eventId : String
  marketId : String
  lineKey : String
  rawData : Option NodeData
deriving DecidableEq

structure SelectionSearchParams where
  eventId : Option String := none
  marketId : Option String := none
  lineKey : Option String := none
  line_id : Option String := none
  internalId : Option String := none
  name : Option String := none
deriving DecidableEq

abbrev LineMap : Type := OMap SelectionRecord
abbrev MarketMap : Type := OMap LineMap
abbrev EventMap : Type := OMap MarketMap
abbrev CacheMap : Type := OMap EventMap

instance : DecidableEq LineMap := inferInstance

instance : DecidableEq MarketMap := inferInstance

instance : DecidableEq EventMap := inferInstance

instance : DecidableEq CacheMap := inferInstance

/-- The two maps of `SelectionCache`. -/
structure SelectionCacheState where
  cache : CacheMap
  line_idIndex : OMap SelectionRecord
deriving DecidableEq

/-! ## Selection Index rebuild (`SelectionCache.buildFromTreeData`) -/

/-- `normalizeLineKey`: `null`/`undefined` become the default bucket,
numeric-looking strings are normalized through `Number(...).toString()`. -/
def normalizeLineKey (line : Option LineVal) : String :=
  match line with
  | none => "__default__"
  | some v =>
      let str := jsStringOfLine v
      match jsParseNumber str with
      | none => str
      | some n => qToString n

/-- The record built for one selection node, or `none` when the selection
is ineligible: the line id is `selection.data?.line_id || selection.id`,
and an empty result (`!lineId`) excludes the selection. -/
def selRecord (eventId marketId lineKey : String) (sel : TreeNode) :
    Option SelectionRecord :=
  let lineId := jsOr (sel.data.bind (·.line_id)) sel.id
  if lineId = "" then none
  else some {
    line_id := lineId
    internalId := sel.id
    name := sel.name
    odds := sel.data.bind (·.odds)
    stake := sel.data.bind (·.stake)
    line := sel.data.bind (·.line)
    eventId := eventId
    marketId := marketId
    lineKey := lineKey
    rawData := sel.data }

/-- Innermost loop body: store the record under its internal id in the
line-level map and under its external line id in the flat index. -/
def processSelection (eventId marketId lineKey : String)
    (st : LineMap × OMap SelectionRecord) (sel : TreeNode) :
    LineMap × OMap SelectionRecord :=
  match selRecord eventId marketId lineKey sel with
  | none => st
  | some r => (oset st.1 sel.id r, oset st.2 r.line_id r)

def processGroup (eventId marketId : String)
    (st : MarketMap × OMap SelectionRecord) (g : TreeNode) :
    MarketMap × OMap SelectionRecord :=
  let lineKey := normalizeLineKey (g.data.bind (·.line))
  let start := (oget st.1 lineKey).getD []
  let res := g.children.foldl (processSelection eventId marketId lineKey) (start, st.2)
  (oset st.1 lineKey res.1, res.2)

def processMarket (eventId : String)
    (st : EventMap × OMap SelectionRecord) (market : TreeNode) :
    EventMap × OMap SelectionRecord :=
  let start := (oget st.1 market.id).getD []
  let res := market.children.foldl (processGroup eventId market.id) (start, st.2)
  (oset st.1 market.id res.1, res.2)

def processCategory (eventId : String)
    (st : EventMap × OMap SelectionRecord) (cat : TreeNode) :
    EventMap × OMap SelectionRecord :=
  cat.children.foldl (processMarket eventId) st

def processEvent (st : CacheMap × OMap SelectionRecord) (ev : TreeNode) :
    CacheMap × OMap SelectionRecord :=
  let start := (oget st.1 ev.id).getD []
  let res := ev.children.foldl (processCategory ev.id) (start, st.2)
  (oset st.1 ev.id res.1, res.2)

def processTournament (st : CacheMap × OMap SelectionRecord) (t : TreeNode) :
    CacheMap × OMap SelectionRecord :=
  t.children.foldl processEvent st

/-- `buildFromTreeData`: clear both maps, then walk
tournament → event → category → market → line-group → selection. -/
def buildFromTreeData (treeData : List TreeNode) : SelectionCacheState :=
  let res := treeData.foldl processTournament ([], [])
  { cache := res.1, line_idIndex := res.2 }

/-! ## Selection Index queries -/

/-- The final `internalId`/`name` filters of the hierarchical scan. -/
def recordPasses (p : SelectionSearchParams) (r : SelectionRecord) : Bool :=
  (!(jsTruthyS p.internalId) || r.internalId == p.internalId.getD "") &&
  (!(jsTruthyS p.name) || r.name == p.name.getD "")

/-- `findSelection`: fast path on a (truthy) `line_id`, otherwise a
hierarchical scan narrowed by whichever of `eventId`/`marketId`/`lineKey`
are (truthy and) given, returning the first record passing the final
filters. -/
def findSelection (st : SelectionCacheState) (p : SelectionSearchParams) :
    Option SelectionRecord :=
  if jsTruthyS p.line_id then oget st.line_idIndex (p.line_id.getD "")
  else
    let searchEvents? : Option (List EventMap) :=
      if jsTruthyS p.eventId then
        match oget st.cache (p.eventId.getD "") with
        | none => none
        | some em => some [em]
      else some (ovalues st.cache)
    match searchEvents? with
    | none => none
    | some searchEvents =>
        searchEvents.findSome? fun eventMap =>
          let searchMarkets :=
            if jsTruthyS p.marketId then
              match oget eventMap (p.marketId.getD "") with
              | none => []
              | some mm => [mm]
            else ovalues eventMap
          searchMarkets.findSome? fun marketMap =>
            let searchLines :=
              if jsTruthyS p.lineKey then
                match oget marketMap (p.lineKey.getD "") with
                | none => []
                | some lm => [lm]
              else ovalues marketMap
            searchLines.findSome? fun lineMap =>
              (ovalues lineMap).find? (recordPasses p)

/-- `getEventSelections`: all records under one event. -/
def getEventSelections (st : SelectionCacheState) (eventId : String) :
    List SelectionRecord :=
  match oget st.cache eventId with
  | none => []
  | some em =>
      (ovalues em).flatMap fun mm => (ovalues mm).flatMap fun lm => ovalues lm

/-- `getMarketSelections`: all records under one market of one event. -/
def getMarketSelections (st : SelectionCacheState) (eventId marketId : String) :
    List SelectionRecord :=
  match (oget st.cache eventId).bind (fun em => oget em marketId) with
  | none => []
  | some mm => (ovalues mm).flatMap fun lm => ovalues lm

/-- `flattenSelectionCache`: every record of the four-level map. -/
def flattenSelectionCache (st : SelectionCacheState) : List SelectionRecord :=
  (ovalues st.cache).flatMap fun em =>
    (ovalues em).flatMap fun mm => (ovalues mm).flatMap fun lm => ovalues lm

/-! ## The eligible records of a tree, in build order -/

def selRecordsOfGroup (eventId marketId : String) (g : TreeNode) :
    List SelectionRecord :=
  g.children.filterMap
    (selRecord eventId marketId (normalizeLineKey (g.data.bind (·.line))))

def recordsOfMarket (eventId : String) (market : TreeNode) : List SelectionRecord :=
  market.children.flatMap (selRecordsOfGroup eventId market.id)

def recordsOfCategory (eventId : String) (cat : TreeNode) : List SelectionRecord :=
  cat.children.flatMap (recordsOfMarket eventId)

def recordsOfEvent (ev : TreeNode) : List SelectionRecord :=
  ev.children.flatMap (recordsOfCategory ev.id)

def recordsOfTournament (t : TreeNode) : List SelectionRecord :=
  t.children.flatMap recordsOfEvent

/-- All eligible selection records of a tree, in the order the rebuild
walk creates them. -/
def eligibleRecords (treeData : List TreeNode) : List SelectionRecord :=
  treeData.flatMap recordsOfTournament

/-- Is a selection node eligible for indexing (nonempty
`data?.line_id || id`)? -/
def eligibleSel (sel : TreeNode) : Bool :=
  jsOr (sel.data.bind (·.line_id)) sel.id != ""

/-- Drop the ineligible selection nodes of one line-group. -/
def cleanGroup (g : TreeNode) : TreeNode :=
  .mk g.id g.name g.type g.data (g.children.filter eligibleSel)

def cleanMarket (market : TreeNode) : TreeNode :=
  .mk market.id market.name market.type market.data
    (market.children.map cleanGroup)

def cleanCategory (cat : TreeNode) : TreeNode :=
  .mk cat.id cat.name cat.type cat.data (cat.children.map cleanMarket)

def cleanEvent (ev : TreeNode) : TreeNode :=
  .mk ev.id ev.name ev.type ev.data (ev.children.map cleanCategory)

def cleanTournament (t : TreeNode) : TreeNode :=
  .mk t.id t.name t.type t.data (t.children.map cleanEvent)

/-- Drop ineligible selection nodes from a tree (every other level is kept
as is); used to state that ineligible selections never reach the index. -/
def removeIneligible (treeData : List TreeNode) : List TreeNode :=
  treeData.map cleanTournament

/-! ## Sample data for the concrete witnesses -/

def selNodeA : TreeNode :=
  .mk "ext-A" "Home" .selection (some { line_id := some "ext-A", odds := some 2 }) []

/-- A selection node with no `data.line_id` and an empty internal id:
its computed line id is empty, so it is ineligible. -/
def selNodeBad : TreeNode := .mk "" "NoId" .selection none []

def sampleTree : List TreeNode :=
  [.mk "t1" "Tour" .tournament none
    [.mk "e1" "Event One" .event none
      [.mk "c1" "Game Lines" .category none
        [.mk "m1" "Moneyline" .market none
          [.mk "g1" "" .category none [selNodeA, selNodeBad]]]]]]

def sampleRecord : SelectionRecord :=
  { line_id := "ext-A"
    internalId := "ext-A"
    name := "Home"
    odds := some 2
    stake := none
    line := none
    eventId := "e1"
    marketId := "m1"
    lineKey := "__default__"
    rawData := some { line_id := some "ext-A", odds := some 2 } }

/-! ## Shape Normalizer output and the hierarchy builder's market step
(`ProphetXAPI.buildHierarchy`, `mergeGroupsForMarket`, the `selKey`
dedup and the line-layer decision) -/

/-- A raw selection entry of a normalized group (all fields optional). -/
structure RawSel where
  line_id : Option String := none
  name : Option String := none
  display_name : Option String := none
  odds : Option ℚ := none
  stake : Option ℚ := none
  line : Option LineVal := none
  display_odds : Option String := none
deriving DecidableEq

/-- One normalized selection group (`NormalizedSelectionGroup`). -/
structure NormalizedSelectionGroup where
  line : Option LineVal := none
  selections : List RawSel := []
deriving DecidableEq

/-- The dedup identity key: `s?.line_id ?? `${name}|${display_name}|${odds}|${line}``
(nullish coalescing: a present-but-empty `line_id` is used as the key). -/
def selKey (s : RawSel) : String :=
  match s.line_id with
  | some id => id
  | none =>
      (s.name.getD "") ++ "|" ++ (s.display_name.getD "") ++ "|" ++
      (match s.odds with | some q => qToString q | none => "") ++ "|" ++
      (match s.line with | some v => jsStringOfLine v | none => "")

/-- The key → record map built by `new Map(selections.map(s => [selKey(s), s]))`:
entries are inserted left to right, a repeated key keeps its first
position but receives the later value. -/
def buildKeyMap (l : List RawSel) : OMap RawSel :=
  l.foldl (fun m s => oset m (selKey s) s) []

/-- `Array.from(new Map(...).values())`: the deduplicated selections. -/
def jsMapDedup (l : List RawSel) : List RawSel :=
  ovalues (buildKeyMap l)

/-- Is `pat` a prefix of `hay`? -/
def leadsWith : List Char → List Char → Bool
  | [], _ => true
  | _ :: _, [] => false
  | p :: ps, c :: cs => p == c && leadsWith ps cs

/-- Does `hay` contain `pat` as a contiguous substring? -/
def hasSub (pat : List Char) : List Char → Bool
  | [] => leadsWith pat []
  | c :: cs => leadsWith pat (c :: cs) || hasSub pat cs

/-- `LINE_MARKET_RE.test(marketName)`: the alternatives
`Run Line|Totals?|Total Runs|Spread|Handicap|Over|Under|Puck Line` with
the `i` flag; `Totals?` and `Total Runs` both reduce to the substring
`total`.  Case folding is per character (ASCII suffices here). -/
def isLineMarket (marketName : String) : Bool :=
  let l := marketName.toList.map Char.toLower
  ["run line", "total", "spread", "handicap", "over", "under", "puck line"].any
    (fun p => hasSub p.toList l)

/-- `normalizeLineKeyForMarket`: one default bucket for non-line markets
(and for missing lines), else `String(line)`. -/
def normalizeLineKeyForMarket (marketName : String) (line : Option LineVal) :
    String :=
  if !(isLineMarket marketName) then "__default__"
  else
    match line with
    | none => "__default__"
    | some v => jsStringOfLine v

/-- `mergeGroupsForMarket`: merge groups by canonical line key, keeping
the first group's `line` for each key (`undefined` for the default
bucket) and concatenating selections; output in key insertion order. -/
def mergeGroupsForMarket (marketName : String)
    (groups : List NormalizedSelectionGroup) : List NormalizedSelectionGroup :=
  ovalues <| groups.foldl
    (fun merged g =>
      let key := normalizeLineKeyForMarket marketName g.line
      match oget merged key with
      | none =>
          oset merged key
            { line := if key = "__default__" then none else g.line
              selections := g.selections }
      | some mg =>
          oset merged key { mg with selections := mg.selections ++ g.selections })
    []

/-- The guard of the line-layer path:
`selection && (selection.line_id || selection.name || selection.display_name)`. -/
def eligibleForNode (s : RawSel) : Bool :=
  jsTruthyS s.line_id || jsTruthyS s.name || jsTruthyS s.display_name

/-- `selection.line_id || `${market.id}-${selection.name || selection.display_name || 'unknown'}`` -/
def selectionNodeId (marketId : String) (s : RawSel) : String :=
  jsOr s.line_id (marketId ++ "-" ++ jsOr s.name (jsOr s.display_name "unknown"))

/-- `selection.display_name || selection.name || 'Unknown Selection'` -/
def selectionNodeName (s : RawSel) : String :=
  jsOr s.display_name (jsOr s.name "Unknown Selection")

/-- `|| undefined` / `|| null` on an optional string: empty becomes none. -/
def jsOrNone (o : Option String) : Option String :=
  match o with
  | some s => if s = "" then none else some s
  | none => none

/-- The selection `TreeNode` the hierarchy builder pushes;
`withLine` is `selection.line ?? group.line` on the line-layer path and
`undefined` on the direct path. -/
def mkSelectionNode (marketId : String) (withLine : Option LineVal)
    (s : RawSel) : TreeNode :=
  .mk (selectionNodeId marketId s) (selectionNodeName s) .selection
    (some { odds := s.odds
            stake := s.stake
            line := withLine
            display_odds := jsOrNone s.display_odds
            line_id := jsOrNone s.line_id }) []

/-- `${market.id}-line-${group.line || 'default'}` -/
def lineNodeId (marketId : String) (line : Option LineVal) : String :=
  marketId ++ "-line-" ++
    (match line with
     | some v => if lineTruthy v then jsStringOfLine v else "default"
     | none => "default")

/-- `Line ${group.line}` / `'Default Line'` -/
def lineNodeName (line : Option LineVal) : String :=
  match line with
  | some v => "Line " ++ jsStringOfLine v
  | none => "Default Line"

/-- The groups a market resolves to after merging and per-group
`selKey` deduplication — the count the line-layer decision looks at. -/
def mergedDedupedGroups (marketName : String)
    (rawGroups : List NormalizedSelectionGroup) : List NormalizedSelectionGroup :=
  (mergeGroupsForMarket marketName rawGroups).map
    (fun g => { g with selections := jsMapDedup g.selections })

/-- One iteration of the line-layer path: build a `category`-typed line
node holding the group's guarded selections (`line: selection.line ??
group.line`) and push it only when it has children. -/
def lineLayerStep (marketId : String) (acc : List TreeNode)
    (group : NormalizedSelectionGroup) : List TreeNode :=
  let kids := group.selections.filterMap fun sel =>
    if eligibleForNode sel then
      some (mkSelectionNode marketId (sel.line.orElse fun _ => group.line) sel)
    else none
  if kids.length > 0 then
    acc ++ [TreeNode.mk (lineNodeId marketId group.line)
      (lineNodeName group.line) .category none kids]
  else acc

/-- The children the hierarchy builder attaches under one market node:
merge the normalized groups, deduplicate each by `selKey`, then
materialize a line sub-layer only when more than one group remains;
with at most one group every selection attaches directly with its
line stripped (`line: undefined`). -/
def buildMarketChildren (marketId marketName : String)
    (rawGroups : List NormalizedSelectionGroup) : List TreeNode :=
  let normalizedGroups := mergedDedupedGroups marketName rawGroups
  let needsLineLayer := normalizedGroups.length > 1
  if normalizedGroups.length > 0 then
    if needsLineLayer then
      normalizedGroups.foldl (lineLayerStep marketId) []
    else
      (normalizedGroups.flatMap (·.selections)).map
        (fun sel => mkSelectionNode marketId none sel)
  else []

/-- Two spread groups with distinct lines, for the line-layer witness. -/
def sampleSpreadGroups : List NormalizedSelectionGroup :=
  [{ line := some (.str "1.5"), selections := [{ line_id := some "A" }] },
   { line := some (.str "-1.5"), selections := [{ line_id := some "B" }] }]

/-! ## Resilient Request Orchestrator (`ProphetXAPI.makeRequest`)

The retry loop of `makeRequest` is modelled against a script: one
`HttpResp` per `fetch` attempt and one outcome per `refreshAccessToken`
call (`some newToken` = success, `none` = the refresh call throws; an
exhausted refresh script also throws, like a missing refresh token).
Timing (backoff delays, jitter) is erased; `refreshLock` is the state of
the single-flight lock as seen by this request's 401 checks.  A `fetch`
that throws a network error behaves exactly like the non-ok
`serverError` branch (both are handled by the same `catch`), so one
constructor covers both.  The outcome records the result, how many
refresh attempts were made, and the access token used per attempt. -/

inductive HttpResp where
  | ok (body : String)
  | tooManyRequests
  | unauthorized
  | serverError
deriving DecidableEq

inductive ReqError where
  | authExpiredRefreshFailed
  | apiFailed
  | maxRetryExceeded
  | scriptExhausted
deriving DecidableEq

inductive ReqResult where
  | success (body : String)
  | failure (e : ReqError)
deriving DecidableEq

structure ReqOutcome where
  result : ReqResult
  refreshCalls : Nat
  tokensUsed : List String
deriving DecidableEq

def maxAttempts : Nat := 3

/-- The `while (attempt < maxAttempts)` loop of `makeRequest`:
429 retries (no last-attempt check); 401 with a free lock refreshes and
retries with the new token, a refresh failure being rethrown into the
generic catch (retry, or surface the auth error on the last attempt);
401 under a held lock falls through to the generic non-ok handling;
other non-ok responses retry and surface on the last attempt; loop exit
yields the max-retry error. -/
def runAttempts (refreshLock : Bool) (token : String) (resps : List HttpResp)
    (refreshes : List (Option String)) (attempt : Nat) : ReqOutcome :=
  if attempt < maxAttempts then
    match resps with
    | [] => ⟨.failure .scriptExhausted, 0, []⟩
    | r :: rest =>
      match r with
      | .ok body => ⟨.success body, 0, [token]⟩
      | .tooManyRequests =>
          let o := runAttempts refreshLock token rest refreshes (attempt + 1)
          ⟨o.result, o.refreshCalls, token :: o.tokensUsed⟩
      | .unauthorized =>
          if refreshLock then
            if attempt = maxAttempts - 1 then ⟨.failure .apiFailed, 0, [token]⟩
            else
              let o := runAttempts refreshLock token rest refreshes (attempt + 1)
              ⟨o.result, o.refreshCalls, token :: o.tokensUsed⟩
          else
            match refreshes with
            | some t' :: rTail =>
                let o := runAttempts refreshLock t' rest rTail (attempt + 1)
                ⟨o.result, o.refreshCalls + 1, token :: o.tokensUsed⟩
            | none :: rTail =>
                if attempt = maxAttempts - 1 then
                  ⟨.failure .authExpiredRefreshFailed, 1, [token]⟩
                else
                  let o := runAttempts refreshLock token rest rTail (attempt + 1)
                  ⟨o.result, o.refreshCalls + 1, token :: o.tokensUsed⟩
            | [] =>
                if attempt = maxAttempts - 1 then
                  ⟨.failure .authExpiredRefreshFailed, 1, [token]⟩
                else
                  let o := runAttempts refreshLock token rest [] (attempt + 1)
                  ⟨o.result, o.refreshCalls + 1, token :: o.tokensUsed⟩
      | .serverError =>
          if attempt = maxAttempts - 1 then ⟨.failure .apiFailed, 0, [token]⟩
          else
            let o := runAttempts refreshLock token rest refreshes (attempt + 1)
            ⟨o.result, o.refreshCalls, token :: o.tokensUsed⟩
  else ⟨.failure .maxRetryExceeded, 0, []⟩

/-! ## Request queue (`RequestQueue`): bounded concurrency, FIFO order

Tasks are labelled by submission index.  `submit` appends the next index
to the waiting queue (`add` pushes and calls `process`); `start` moves
the queue head into execution, only when fewer than `maxConcurrency`
tasks run (`process` checks `running >= maxConcurrency` and `shift`s);
`finish` ends one running task (the `finally` decrement).  `admitted`
records the admission order. -/

def maxConcurrency : Nat := 3

structure QState where
  waiting : List Nat
  running : Nat
  nextId : Nat
  admitted : List Nat
deriving DecidableEq

inductive QStep : QState → QState → Prop where
  | submit (w : List Nat) (r n : Nat) (adm : List Nat) :
      QStep ⟨w, r, n, adm⟩ ⟨w ++ [n], r, n + 1, adm⟩
  | start (t : Nat) (w : List Nat) (r n : Nat) (adm : List Nat) :
      r < maxConcurrency →
      QStep ⟨t :: w, r, n, adm⟩ ⟨w, r + 1, n, adm ++ [t]⟩
  | finish (w : List Nat) (r n : Nat) (adm : List Nat) :
      QStep ⟨w, r + 1, n, adm⟩ ⟨w, r, n, adm⟩

def QInit : QState := ⟨[], 0, 0, []⟩

def QReachable (s : QState) : Prop := Relation.ReflTransGen QStep QInit s

/-- The queue invariant: at most `maxConcurrency` running, and the
admitted-then-waiting sequence is strictly increasing in submission
order, all below the next fresh id. -/
def QInv (s : QState) : Prop :=
  s.running ≤ maxConcurrency ∧
  List.Sorted (· < ·) (s.admitted ++ s.waiting) ∧
  ∀ x ∈ s.admitted ++ s.waiting, x < s.nextId

/-- Store one record in the flat external-id index. -/
def osetR (m : OMap SelectionRecord) (r : SelectionRecord) : OMap SelectionRecord :=
  oset m r.line_id r

/-- A record is consistent with the position `(e, m, k, i)` it is stored
under, and carries a nonempty external line id. -/
def RecOK (e m k i : String) (r : SelectionRecord) : Prop :=
  r.eventId = e ∧ r.marketId = m ∧ r.lineKey = k ∧ r.internalId = i ∧
    r.line_id ≠ ""

def LineMapOK (e m k : String) (lm : LineMap) : Prop :=
  ∀ p ∈ lm, RecOK e m k p.1 p.2

def MarketMapOK (e m : String) (mm : MarketMap) : Prop :=
  ∀ p ∈ mm, LineMapOK e m p.1 p.2

def EventMapOK (e : String) (em : EventMap) : Prop :=
  ∀ p ∈ em, MarketMapOK e p.1 p.2

def CacheMapOK (c : CacheMap) : Prop :=
  ∀ p ∈ c, EventMapOK p.1 p.2

theorem oget_oset {α : Type} (m : OMap α) (k k' : String) (v : α) :
    oget (oset m k v) k' = if k = k' then some v else oget m k' := by
  induction m with
  | nil => by_cases h : k = k' <;> simp [oset, oget, h]
  | cons p m ih =>
      obtain ⟨k₀, v₀⟩ := p
      by_cases h₀ : k₀ = k
      · subst h₀
        by_cases h : k₀ = k' <;> simp [oset, oget, h]
      · by_cases h : k₀ = k'
        · subst h
          have hne : k ≠ k₀ := fun hh => h₀ hh.symm
          simp [oset, oget, h₀, hne]
        · simp [oset, oget, h₀, h, ih]

theorem mem_oset {α : Type} {m : OMap α} {k : String} {v : α} {p : String × α}
    (h : p ∈ oset m k v) : p ∈ m ∨ p = (k, v) := by
  induction m with
  | nil => simp [oset] at h; simp [h]
  | cons q m ih =>
      obtain ⟨k₀, v₀⟩ := q
      by_cases h₀ : k₀ = k
      · subst h₀
        simp [oset] at h
        rcases h with h | h
        · right; simp [h]
        · left; simp [h]
      · simp [oset, h₀] at h
        rcases h with h | h
        · left; simp [h]
        · rcases ih h with h' | h'
          · left; simp [h']
          · right; exact h'

theorem oget_mem {α : Type} {m : OMap α} {k : String} {v : α}
    (h : oget m k = some v) : (k, v) ∈ m := by
  induction m with
  | nil => simp [oget] at h
  | cons q m ih =>
      obtain ⟨k₀, v₀⟩ := q
      by_cases h₀ : k₀ = k
      · subst h₀
        simp [oget] at h
        simp [h]
      · simp [oget, h₀] at h
        simp [ih h]

/-- Folding `oset (key a) a` over a list: the binding finally stored under
`k` is the last list element whose key is `k`; other keys are untouched. -/
theorem oget_foldl_oset {α : Type} (key : α → String) (l : List α)
    (m : OMap α) (k : String) :
    oget (l.foldl (fun acc a => oset acc (key a) a) m) k =
      match lastWith (fun a => key a == k) l with
      | some a => some a
      | none => oget m k := by
  induction l generalizing m with
  | nil => simp [lastWith]
  | cons a l ih =>
      simp only [List.foldl_cons, ih, lastWith]
      cases h : lastWith (fun a => key a == k) l with
      | some r => simp
      | none =>
          by_cases hk : key a = k
          · simp [hk, oget_oset]
          · simp [hk, oget_oset, Ne.symm hk]

/-- Entries of a map built by folding `oset (key a) a` over `l` starting
from `m₀`: each entry either comes from `m₀` or is `(key a, a)` for some
`a ∈ l`. -/
theorem mem_foldl_oset {α : Type} (key : α → String) (l : List α)
    (m₀ : OMap α) {p : String × α}
    (h : p ∈ l.foldl (fun acc a => oset acc (key a) a) m₀) :
    p ∈ m₀ ∨ ∃ a ∈ l, p = (key a, a) := by
  induction l generalizing m₀ with
  | nil =>
      simp only [List.foldl_nil] at h
      exact Or.inl h
  | cons a l ih =>
      simp only [List.foldl_cons] at h
      rcases ih _ h with h' | ⟨b, hb, rfl⟩
      · rcases mem_oset h' with h'' | h''
        · exact Or.inl h''
        · exact Or.inr ⟨a, by simp, h''⟩
      · exact Or.inr ⟨b, by simp [hb], rfl⟩

/-! ## Claim C3: moneyline → decimal → moneyline roundtrip -/

/-- C3 counterexample: at the concrete input `a = -100` the roundtrip
`decimalToAmerican (americanToDecimal a)` returns `+100`, which deviates
from `a` by `200 > 1`, refuting "recovers `a` allowing a rounding
deviation of at most 1" as stated. -/
theorem c3_counterexample_neg100 :
    (americanToDecimal (-100)).bind decimalToAmerican = some 100 ∧
    ∀ b : ℤ, (americanToDecimal (-100)).bind decimalToAmerican = some b →
      1 < |b - (-100)| := by
  have h : (americanToDecimal (-100)).bind decimalToAmerican = some 100 := by
    have h1 : americanToDecimal (-100) = some 2 := by
      unfold americanToDecimal
      norm_num
    rw [h1]
    unfold decimalToAmerican
    norm_num
  refine ⟨h, ?_⟩
  intro b hb
  rw [h] at hb
  obtain rfl : (100 : ℤ) = b := by simpa using hb
  norm_num

/-- C3 (amended): for every integer moneyline `a` with `|a| ≥ 100` except
`a = -100`, the roundtrip recovers `a` exactly (deviation 0, hence within
the claimed ±1); at `a = -100` it returns `+100`, because `-100` and
`+100` both encode the alt (decimal) value `2`. -/
theorem c3_roundtrip_amended (a : ℤ) (h : 100 ≤ |a|) :
    (americanToDecimal (a : ℚ)).bind decimalToAmerican =
      some (if a = -100 then 100 else a) := by
  rcases abs_cases a with ⟨habs, hsg⟩ | ⟨habs, hsg⟩ <;> rw [habs] at h
  · -- 0 ≤ a, hence 100 ≤ a
    have ha0 : (a : ℚ) ≠ 0 := by exact_mod_cast (by omega : a ≠ 0)
    have h100 : (100 : ℤ) ≤ a := by omega
    have hpos : (0 : ℚ) < (a : ℚ) := by exact_mod_cast (by omega : (0 : ℤ) < a)
    have h1 : americanToDecimal (a : ℚ) = some (1 + (a : ℚ) / 100) := by
      unfold americanToDecimal
      rw [if_neg ha0, if_pos hpos]
    rw [h1, Option.some_bind]
    unfold decimalToAmerican
    have hq100 : (100 : ℚ) ≤ (a : ℚ) := by exact_mod_cast h100
    rw [if_neg (by nlinarith : ¬(1 + (a : ℚ) / 100 ≤ 1)),
      if_pos (by nlinarith : (2 : ℚ) ≤ 1 + (a : ℚ) / 100)]
    have : ((1 + (a : ℚ) / 100 - 1) * 100) = (a : ℚ) := by ring
    rw [this, round_intCast, if_neg (by omega : ¬a = -100)]
  · -- a ≤ 0, hence a ≤ -100
    have ha0 : (a : ℚ) ≠ 0 := by exact_mod_cast (by omega : a ≠ 0)
    have h100 : a ≤ -100 := by omega
    have hneg : ¬(0 : ℚ) < (a : ℚ) := by
      simp only [not_lt]
      exact_mod_cast (by omega : a ≤ 0)
    have habsq : |(a : ℚ)| = -(a : ℚ) := by
      rw [abs_of_nonpos]
      exact_mod_cast (by omega : a ≤ 0)
    have h1 : americanToDecimal (a : ℚ) = some (1 + 100 / (-(a : ℚ))) := by
      unfold americanToDecimal
      rw [if_neg ha0, if_neg hneg, habsq]
    have haq : (a : ℚ) ≤ -100 := by exact_mod_cast h100
    rw [h1, Option.some_bind]
    unfold decimalToAmerican
    have hgt : ¬(1 + 100 / (-(a : ℚ)) ≤ 1) := by
      have hd : (0 : ℚ) < 100 / (-(a : ℚ)) :=
        div_pos (by norm_num) (by linarith)
      linarith
    rw [if_neg hgt]
    by_cases hm : a = -100
    · subst hm
      norm_num
    · have hlt : (a : ℚ) < -100 := by
        have h' : a < -100 := by omega
        exact_mod_cast h'
      have hne2 : ¬(2 : ℚ) ≤ 1 + 100 / (-(a : ℚ)) := by
        have hpos : (0 : ℚ) < -(a : ℚ) := by linarith
        rw [not_le]
        have : 100 / (-(a : ℚ)) < 1 := by
          rw [div_lt_one hpos]
          linarith
        linarith
      rw [if_neg hne2]
      have harith : -100 / (1 + 100 / (-(a : ℚ)) - 1) = (a : ℚ) := by
        have hpos : (0 : ℚ) < -(a : ℚ) := by linarith
        field_simp
      rw [harith, round_intCast, if_neg hm]

/-- Witness for C3 (amended) at the concrete input `a = 150`. -/
theorem c3_roundtrip_amended_witness :
    100 ≤ |(150 : ℤ)| ∧
      (americanToDecimal ((150 : ℤ) : ℚ)).bind decimalToAmerican =
        some (if (150 : ℤ) = -100 then 100 else 150) :=
  ⟨by norm_num, c3_roundtrip_amended 150 (by norm_num)⟩

/-! ## Claim C4: ladder snapping -/

theorem clampFold_spec (x : ℚ) (l : List ℚ) (b : ℚ) :
    (clampFold x l (b, |x - b|)).2 = |x - (clampFold x l (b, |x - b|)).1| ∧
    ((clampFold x l (b, |x - b|)).1 = b ∨ (clampFold x l (b, |x - b|)).1 ∈ l) ∧
    (∀ p ∈ l, (clampFold x l (b, |x - b|)).2 ≤ |x - p|) ∧
    (clampFold x l (b, |x - b|)).2 ≤ |x - b| ∧
    ((clampFold x l (b, |x - b|)).1 = b ∨ (clampFold x l (b, |x - b|)).2 < |x - b|) := by
  induction l generalizing b with
  | nil => simp [clampFold]
  | cons p l ih =>
      by_cases hp : |x - p| < |x - b|
      · have hstep : clampFold x (p :: l) (b, |x - b|) = clampFold x l (p, |x - p|) := by
          simp [clampFold, hp]
        obtain ⟨h1, h2, h3, h4, h5⟩ := ih p
        rw [hstep]
        refine ⟨h1, ?_, ?_, ?_, ?_⟩
        · rcases h2 with h | h
          · exact Or.inr (by simp [h])
          · exact Or.inr (by simp [h])
        · intro q hq
          rcases List.mem_cons.mp hq with rfl | hq
          · exact h4
          · exact h3 q hq
        · exact le_of_lt (lt_of_le_of_lt h4 hp)
        · exact Or.inr (lt_of_le_of_lt h4 hp)
      · have hstep : clampFold x (p :: l) (b, |x - b|) = clampFold x l (b, |x - b|) := by
          simp [clampFold, hp]
        obtain ⟨h1, h2, h3, h4, h5⟩ := ih b
        rw [hstep]
        refine ⟨h1, ?_, ?_, h4, h5⟩
        · rcases h2 with h | h
          · exact Or.inl h
          · exact Or.inr (by simp [h])
        · intro q hq
          rcases List.mem_cons.mp hq with rfl | hq
          · exact le_trans h4 (not_lt.mp hp)
          · exact h3 q hq

theorem clampFold_first (x : ℚ) (l : List ℚ) (b : ℚ)
    (hs : List.Sorted (· ≤ ·) (b :: l)) :
    ∀ q ∈ b :: l, |x - q| = (clampFold x l (b, |x - b|)).2 →
      (clampFold x l (b, |x - b|)).1 ≤ q := by
  induction l generalizing b with
  | nil =>
      intro q hq hdist
      simp [clampFold] at *
      simp [hq]
  | cons p l ih =>
      have hbp : b ≤ p := (List.sorted_cons.mp hs).1 p (by simp)
      have hsp : List.Sorted (· ≤ ·) (p :: l) := (List.sorted_cons.mp hs).2
      have hsb : List.Sorted (· ≤ ·) (b :: l) := by
        rw [List.sorted_cons] at hs hsp ⊢
        exact ⟨fun q hq => hs.1 q (by simp [hq]), hsp.2⟩
      intro q hq hdist
      by_cases hp : |x - p| < |x - b|
      · have hstep : clampFold x (p :: l) (b, |x - b|) = clampFold x l (p, |x - p|) := by
          simp [clampFold, hp]
        rw [hstep] at hdist ⊢
        rcases List.mem_cons.mp hq with rfl | hq'
        · -- q = b is impossible: the running distance is strictly below |x - b|
          obtain ⟨-, -, -, h4, -⟩ := clampFold_spec x l p
          exact absurd (hdist ▸ lt_of_le_of_lt h4 hp) (lt_irrefl _)
        · exact ih p hsp q hq' hdist
      · have hstep : clampFold x (p :: l) (b, |x - b|) = clampFold x l (b, |x - b|) := by
          simp [clampFold, hp]
        rw [hstep] at hdist ⊢
        rcases List.mem_cons.mp hq with rfl | hq'
        · exact ih q hsb q (by simp) hdist
        · rcases List.mem_cons.mp hq' with rfl | hq'
          · -- the tie with the later, larger tick `p = q`
            obtain ⟨-, -, -, -, h5⟩ := clampFold_spec x l b
            rcases h5 with h | h
            · rw [h]
              exact hbp
            · have hbq : |x - b| ≤ |x - q| := not_lt.mp hp
              rw [hdist] at hbq
              exact absurd (lt_of_le_of_lt hbq h) (lt_irrefl _)
          · exact ih b hsb q (by simp [hq']) hdist

/-- C4: for every value `x` and sorted ascending ladder, `clampToLadder`
returns an element of the ladder minimizing `|x - tick|`, and on an exact
tie it returns the first tick of the left-to-right scan (the smallest
minimizer); for the empty ladder it returns `x` unchanged. -/
theorem c4_clampToLadder_spec (x : ℚ) (ladder : List ℚ)
    (hs : List.Sorted (· ≤ ·) ladder) :
    (ladder = [] → clampToLadder x ladder = x) ∧
    (ladder ≠ [] →
      clampToLadder x ladder ∈ ladder ∧
      (∀ t ∈ ladder, |x - clampToLadder x ladder| ≤ |x - t|) ∧
      (∀ t ∈ ladder, |x - t| = |x - clampToLadder x ladder| →
        clampToLadder x ladder ≤ t)) := by
  match ladder with
  | [] => exact ⟨fun _ => rfl, fun h => absurd rfl h⟩
  | b :: l =>
      refine ⟨fun h => absurd h (by simp), fun _ => ?_⟩
      have hstepeq : clampFold x (b :: l) (b, |x - b|) = clampFold x l (b, |x - b|) := by
        simp [clampFold]
      have hval : clampToLadder x (b :: l) = (clampFold x l (b, |x - b|)).1 := by
        rw [clampToLadder, hstepeq]
      obtain ⟨h1, h2, h3, h4, -⟩ := clampFold_spec x l b
      have habs : |x - clampToLadder x (b :: l)| = (clampFold x l (b, |x - b|)).2 := by
        rw [hval, ← h1]
      refine ⟨?_, ?_, ?_⟩
      · rw [hval]
        rcases h2 with h | h
        · simp [h]
        · simp [h]
      · intro t ht
        rw [habs]
        rcases List.mem_cons.mp ht with rfl | ht'
        · exact h4
        · exact h3 t ht'
      · intro t ht htie
        rw [habs] at htie
        rw [hval]
        exact clampFold_first x l b hs t ht htie

/-- Witness for C4 at `x = 3`, ladder `[1, 2, 4]` (the tie between ticks
`2` and `4` resolves to the earlier/smaller tick `2`). -/
theorem c4_clampToLadder_spec_witness :
    List.Sorted (· ≤ ·) [(1 : ℚ), 2, 4] ∧
    ((([(1 : ℚ), 2, 4] : List ℚ) = [] → clampToLadder 3 [1, 2, 4] = 3) ∧
      (([(1 : ℚ), 2, 4] : List ℚ) ≠ [] →
        clampToLadder 3 [1, 2, 4] ∈ [(1 : ℚ), 2, 4] ∧
        (∀ t ∈ [(1 : ℚ), 2, 4], |3 - clampToLadder 3 [1, 2, 4]| ≤ |3 - t|) ∧
        (∀ t ∈ [(1 : ℚ), 2, 4], |3 - t| = |3 - clampToLadder 3 [1, 2, 4]| →
          clampToLadder 3 [1, 2, 4] ≤ t))) :=
  ⟨by norm_num [List.sorted_cons],
    c4_clampToLadder_spec 3 [1, 2, 4] (by norm_num [List.sorted_cons])⟩

/-! ## Claim C10: signed odds-string parsing -/

/-- C10: `parseAmericanString` trims, notes whether the trimmed input
starts with a minus, strips every character other than digits and dots,
`Number`-parses the result, throws (`none`) exactly when that number is
`NaN` or zero, and otherwise returns sign times the rounded magnitude.
Consequently strings with extraneous characters such as `"$150"` and
`"+1,500"` are accepted; an explicit plus sign and no sign are
equivalent. -/
theorem c10_parseAmericanString_spec :
    (∀ s : String,
      parseAmericanString s =
        match jsParseNumber
            (String.mk ((jsTrimList s.toList).filter (fun c => c.isDigit || c == '.'))) with
        | none => none
        | some n =>
            if n = 0 then none
            else some ((if (jsTrimList s.toList).head? = some '-' then (-1 : ℤ) else 1) * round n)) ∧
    parseAmericanString "$150" = some 150 ∧
    parseAmericanString "+1,500" = some 1500 ∧
    parseAmericanString " -146 " = some (-146) ∧
    parseAmericanString "+150" = parseAmericanString "150" ∧
    parseAmericanString "" = none ∧
    parseAmericanString "abc" = none ∧
    parseAmericanString "1.2.3" = none := by
  refine ⟨fun s => rfl, ?_, ?_, ?_, ?_, by decide, by decide, by decide⟩ <;>
    simp [parseAmericanString, jsParseNumber, jsTrimList, jsParseNumberCore,
      splitOnDot, jsDigitsVal]

/-! ## Generic fold lemmas -/

theorem foldl_preserves {σ A : Type} (f : σ → A → σ) (P : σ → Prop)
    (hf : ∀ s a, P s → P (f s a)) :
    ∀ (l : List A) (s : σ), P s → P (l.foldl f s) := by
  intro l
  induction l with
  | nil => intro s hs; simpa using hs
  | cons a l ih => intro s hs; exact ih (f s a) (hf s a hs)

theorem foldl_ext {σ A : Type} (f f' : σ → A → σ)
    (h : ∀ s a, f s a = f' s a) :
    ∀ (l : List A) (s : σ), l.foldl f s = l.foldl f' s := by
  intro l
  induction l with
  | nil => intro s; rfl
  | cons a l ih => intro s; simp only [List.foldl_cons, h, ih]

theorem foldl_filter_skip {σ A : Type} (f : σ → A → σ) (p : A → Bool)
    (hf : ∀ s a, p a = false → f s a = s) :
    ∀ (l : List A) (s : σ), (l.filter p).foldl f s = l.foldl f s := by
  intro l
  induction l with
  | nil => intro s; rfl
  | cons a l ih =>
      intro s
      by_cases hp : p a
      · simp [List.filter_cons, hp, ih]
      · have hp' : p a = false := by simpa using hp
        simp [List.filter_cons, hp', ih, hf s a hp']

theorem flatMap_toList_eq_filterMap {A B : Type} (g : A → Option B) :
    ∀ l : List A, (l.flatMap fun a => (g a).toList) = l.filterMap g := by
  intro l
  induction l with
  | nil => rfl
  | cons a l ih => cases h : g a <;> simp [List.flatMap_cons, h, ih]

/-- The flat-index component of a state-threading fold: if one step's
index component is a fold of that element's records, the whole fold's
index component is a fold of all records in order. -/
theorem foldl_snd_records {σ A : Type}
    (f : σ × OMap SelectionRecord → A → σ × OMap SelectionRecord)
    (rec : A → List SelectionRecord)
    (hf : ∀ st a, (f st a).2 = (rec a).foldl osetR st.2) :
    ∀ (l : List A) (st : σ × OMap SelectionRecord),
      (l.foldl f st).2 = (l.flatMap rec).foldl osetR st.2 := by
  intro l
  induction l with
  | nil => intro st; rfl
  | cons a l ih =>
      intro st
      simp only [List.foldl_cons, List.flatMap_cons, List.foldl_append, ih, hf]

/-! ## The flat index equals the fold of the eligible records -/

theorem processSelection_snd (e m k : String)
    (st : LineMap × OMap SelectionRecord) (sel : TreeNode) :
    (processSelection e m k st sel).2 =
      ((selRecord e m k sel).toList).foldl osetR st.2 := by
  unfold processSelection
  cases h : selRecord e m k sel <;> simp [h, osetR]

theorem processGroup_snd (e m : String)
    (st : MarketMap × OMap SelectionRecord) (g : TreeNode) :
    (processGroup e m st g).2 = (selRecordsOfGroup e m g).foldl osetR st.2 := by
  unfold processGroup selRecordsOfGroup
  rw [foldl_snd_records (processSelection e m _) _ (processSelection_snd e m _),
    flatMap_toList_eq_filterMap]

theorem processMarket_snd (e : String)
    (st : EventMap × OMap SelectionRecord) (market : TreeNode) :
    (processMarket e st market).2 = (recordsOfMarket e market).foldl osetR st.2 := by
  unfold processMarket recordsOfMarket
  rw [foldl_snd_records (processGroup e market.id) _ (processGroup_snd e market.id)]

theorem processCategory_snd (e : String)
    (st : EventMap × OMap SelectionRecord) (cat : TreeNode) :
    (processCategory e st cat).2 = (recordsOfCategory e cat).foldl osetR st.2 := by
  unfold processCategory recordsOfCategory
  rw [foldl_snd_records (processMarket e) _ (processMarket_snd e)]

theorem processEvent_snd (st : CacheMap × OMap SelectionRecord) (ev : TreeNode) :
    (processEvent st ev).2 = (recordsOfEvent ev).foldl osetR st.2 := by
  unfold processEvent recordsOfEvent
  rw [foldl_snd_records (processCategory ev.id) _ (processCategory_snd ev.id)]

theorem processTournament_snd (st : CacheMap × OMap SelectionRecord) (t : TreeNode) :
    (processTournament st t).2 = (recordsOfTournament t).foldl osetR st.2 := by
  unfold processTournament recordsOfTournament
  rw [foldl_snd_records processEvent _ processEvent_snd]

theorem buildFromTreeData_idx (td : List TreeNode) :
    (buildFromTreeData td).line_idIndex = (eligibleRecords td).foldl osetR [] := by
  unfold buildFromTreeData eligibleRecords
  exact foldl_snd_records processTournament _ processTournament_snd td ([], [])

theorem oget_foldl_osetR (l : List SelectionRecord) (m : OMap SelectionRecord)
    (k : String) :
    oget (l.foldl osetR m) k =
      match lastWith (fun r => r.line_id == k) l with
      | some r => some r
      | none => oget m k := by
  have h : l.foldl osetR m =
      l.foldl (fun acc a => oset acc (SelectionRecord.line_id a) a) m := rfl
  rw [h, oget_foldl_oset]
  cases hl : lastWith (fun r => r.line_id == k) l <;> simp [hl]

/-! ## Claim C1: find by external id after rebuild -/

/-- C1: after `buildFromTreeData tree`, a `findSelection` query carrying a
(nonempty) external line id is answered on the flat map alone — every
other filter in the params is ignored — and returns the last eligible
record of the tree whose external line id is that id: a record with
exactly that external id whenever some eligible selection of the tree
carries it (the unique such record when external ids are distinct), and
`none` when no eligible selection of the tree carries the id. -/
theorem c1_find_by_external_id (td : List TreeNode) (p : SelectionSearchParams)
    (id : String) (hid : p.line_id = some id) (hne : id ≠ "") :
    findSelection (buildFromTreeData td) p =
      lastWith (fun r => r.line_id == id) (eligibleRecords td) := by
  unfold findSelection
  rw [hid]
  rw [if_pos (by simp [jsTruthyS, hne] : jsTruthyS (some id) = true)]
  show oget (buildFromTreeData td).line_idIndex id = _
  rw [buildFromTreeData_idx, oget_foldl_osetR]
  cases hl : lastWith (fun r => r.line_id == id) (eligibleRecords td) <;>
    simp [hl, oget]

/-- Witness for C1 on `sampleTree`: the query also carries an (ignored)
`eventId` filter naming a different event. -/
theorem c1_find_by_external_id_witness :
    (SelectionSearchParams.mk (some "other-event") none none (some "ext-A")
        none none).line_id = some "ext-A" ∧
    "ext-A" ≠ "" ∧
    findSelection (buildFromTreeData sampleTree)
        (SelectionSearchParams.mk (some "other-event") none none (some "ext-A")
          none none) =
      lastWith (fun r => r.line_id == "ext-A") (eligibleRecords sampleTree) :=
  ⟨rfl, by decide,
    c1_find_by_external_id sampleTree _ "ext-A" rfl (by decide)⟩

/-! ## Index invariants: record/position consistency and eligibility -/

theorem mem_ovalues {α : Type} {m : OMap α} {v : α} (h : v ∈ ovalues m) :
    ∃ k, (k, v) ∈ m := by
  simp only [ovalues, List.mem_map] at h
  obtain ⟨⟨k, v'⟩, hm, hv⟩ := h
  dsimp only at hv
  subst hv
  exact ⟨k, hm⟩

theorem selRecord_ok {e m k : String} {sel : TreeNode} {r : SelectionRecord}
    (h : selRecord e m k sel = some r) : RecOK e m k sel.id r := by
  unfold selRecord at h
  by_cases hl : jsOr (sel.data.bind (·.line_id)) sel.id = ""
  · simp [hl] at h
  · simp only [hl, if_neg, if_false, Option.some.injEq] at h
    refine ⟨?_, ?_, ?_, ?_, ?_⟩ <;> simp [← h]
    exact hl

theorem processSelection_fst_ok (e m k : String)
    (st : LineMap × OMap SelectionRecord) (sel : TreeNode)
    (h : LineMapOK e m k st.1) :
    LineMapOK e m k (processSelection e m k st sel).1 := by
  unfold processSelection
  cases hr : selRecord e m k sel with
  | none => simpa using h
  | some r =>
      intro p hp
      simp only at hp
      rcases mem_oset hp with hp' | hp'
      · exact h p hp'
      · rw [hp']
        exact selRecord_ok hr

theorem processGroup_fst_ok (e m : String)
    (st : MarketMap × OMap SelectionRecord) (g : TreeNode)
    (h : MarketMapOK e m st.1) :
    MarketMapOK e m (processGroup e m st g).1 := by
  intro p hp
  simp only [processGroup] at hp
  rcases mem_oset hp with hp' | hp'
  · exact h p hp'
  · rw [hp']
    have hstart :
        LineMapOK e m (normalizeLineKey (g.data.bind (·.line)))
          ((oget st.1 (normalizeLineKey (g.data.bind (·.line)))).getD []) := by
      cases ho : oget st.1 (normalizeLineKey (g.data.bind (·.line))) with
      | none => intro q hq; simp at hq
      | some lm => simpa using h _ (oget_mem ho)
    exact foldl_preserves _
      (fun s : LineMap × OMap SelectionRecord =>
        LineMapOK e m (normalizeLineKey (g.data.bind (·.line))) s.1)
      (fun s a hs => processSelection_fst_ok e m _ s a hs)
      g.children _ hstart

theorem processMarket_fst_ok (e : String)
    (st : EventMap × OMap SelectionRecord) (market : TreeNode)
    (h : EventMapOK e st.1) :
    EventMapOK e (processMarket e st market).1 := by
  intro p hp
  simp only [processMarket] at hp
  rcases mem_oset hp with hp' | hp'
  · exact h p hp'
  · rw [hp']
    have hstart : MarketMapOK e market.id ((oget st.1 market.id).getD []) := by
      cases ho : oget st.1 market.id with
      | none => intro q hq; simp at hq
      | some mm => simpa using h _ (oget_mem ho)
    exact foldl_preserves _
      (fun s : MarketMap × OMap SelectionRecord => MarketMapOK e market.id s.1)
      (fun s a hs => processGroup_fst_ok e market.id s a hs)
      market.children _ hstart

theorem processCategory_fst_ok (e : String)
    (st : EventMap × OMap SelectionRecord) (cat : TreeNode)
    (h : EventMapOK e st.1) :
    EventMapOK e (processCategory e st cat).1 := by
  unfold processCategory
  exact foldl_preserves _
    (fun s : EventMap × OMap SelectionRecord => EventMapOK e s.1)
    (fun s a hs => processMarket_fst_ok e s a hs) cat.children st h

theorem processEvent_fst_ok (st : CacheMap × OMap SelectionRecord)
    (ev : TreeNode) (h : CacheMapOK st.1) :
    CacheMapOK (processEvent st ev).1 := by
  intro p hp
  simp only [processEvent] at hp
  rcases mem_oset hp with hp' | hp'
  · exact h p hp'
  · rw [hp']
    have hstart : EventMapOK ev.id ((oget st.1 ev.id).getD []) := by
      cases ho : oget st.1 ev.id with
      | none => intro q hq; simp at hq
      | some em => simpa using h _ (oget_mem ho)
    exact foldl_preserves _
      (fun s : EventMap × OMap SelectionRecord => EventMapOK ev.id s.1)
      (fun s a hs => processCategory_fst_ok ev.id s a hs)
      ev.children _ hstart

theorem processTournament_fst_ok (st : CacheMap × OMap SelectionRecord)
    (t : TreeNode) (h : CacheMapOK st.1) :
    CacheMapOK (processTournament st t).1 := by
  unfold processTournament
  exact foldl_preserves _
    (fun s : CacheMap × OMap SelectionRecord => CacheMapOK s.1)
    (fun s a hs => processEvent_fst_ok s a hs) t.children st h

theorem buildFromTreeData_cache_ok (td : List TreeNode) :
    CacheMapOK (buildFromTreeData td).cache := by
  unfold buildFromTreeData
  exact foldl_preserves _
    (fun s : CacheMap × OMap SelectionRecord => CacheMapOK s.1)
    (fun s a hs => processTournament_fst_ok s a hs) td ([], [])
    (fun p hp => by simp at hp)

theorem eligibleRecords_lineId {td : List TreeNode} {r : SelectionRecord}
    (h : r ∈ eligibleRecords td) : r.line_id ≠ "" := by
  simp only [eligibleRecords, recordsOfTournament, recordsOfEvent,
    recordsOfCategory, recordsOfMarket, selRecordsOfGroup, List.mem_flatMap,
    List.mem_filterMap] at h
  obtain ⟨t, -, ev, -, cat, -, market, -, g, -, sel, -, hsel⟩ := h
  exact (selRecord_ok hsel).2.2.2.2

/-! ## Removing ineligible selections does not change the rebuilt index -/

theorem processSelection_skip (e m k : String)
    (st : LineMap × OMap SelectionRecord) (sel : TreeNode)
    (h : eligibleSel sel = false) :
    processSelection e m k st sel = st := by
  have hnone : selRecord e m k sel = none := by
    unfold eligibleSel at h
    simp only [bne_eq_false_iff_eq] at h
    unfold selRecord
    simp [h]
  unfold processSelection
  simp [hnone]

theorem processGroup_clean (e m : String)
    (st : MarketMap × OMap SelectionRecord) (g : TreeNode) :
    processGroup e m st (cleanGroup g) = processGroup e m st g := by
  unfold processGroup cleanGroup
  simp only [TreeNode.data, TreeNode.children]
  rw [foldl_filter_skip _ _ (fun s a ha => processSelection_skip e m _ s a ha)]

theorem processMarket_clean (e : String)
    (st : EventMap × OMap SelectionRecord) (market : TreeNode) :
    processMarket e st (cleanMarket market) = processMarket e st market := by
  obtain ⟨mid, mname, mty, mdata, mch⟩ := market
  unfold processMarket cleanMarket
  simp only [TreeNode.id, TreeNode.children]
  rw [List.foldl_map, foldl_ext _ _ (fun s a => processGroup_clean e mid s a)]

theorem processCategory_clean (e : String)
    (st : EventMap × OMap SelectionRecord) (cat : TreeNode) :
    processCategory e st (cleanCategory cat) = processCategory e st cat := by
  unfold processCategory cleanCategory
  simp only [TreeNode.children]
  rw [List.foldl_map, foldl_ext _ _ (fun s a => processMarket_clean e s a)]

theorem processEvent_clean (st : CacheMap × OMap SelectionRecord)
    (ev : TreeNode) :
    processEvent st (cleanEvent ev) = processEvent st ev := by
  obtain ⟨eid, ename, ety, edata, ech⟩ := ev
  unfold processEvent cleanEvent
  simp only [TreeNode.id, TreeNode.children]
  rw [List.foldl_map, foldl_ext _ _ (fun s a => processCategory_clean eid s a)]

theorem processTournament_clean (st : CacheMap × OMap SelectionRecord)
    (t : TreeNode) :
    processTournament st (cleanTournament t) = processTournament st t := by
  unfold processTournament cleanTournament
  simp only [TreeNode.children]
  rw [List.foldl_map, foldl_ext _ _ (fun s a => processEvent_clean s a)]

theorem buildFromTreeData_removeIneligible (td : List TreeNode) :
    buildFromTreeData (removeIneligible td) = buildFromTreeData td := by
  unfold buildFromTreeData removeIneligible
  rw [List.foldl_map, foldl_ext _ _ (fun s a => processTournament_clean s a)]

/-! ## Claim C9: stored records are consistent with their position -/

/-- C9: in the index rebuilt from any tree, a record reachable under keys
`(eventId e, marketId m, lineKey k, internalId i)` has exactly those four
fields; consequently `getEventSelections e` returns only records with
`eventId = e` and `getMarketSelections e m` only records with
`eventId = e` and `marketId = m`. -/
theorem c9_record_position_consistency (td : List TreeNode) :
    (∀ e em m mm k lm i r,
        oget (buildFromTreeData td).cache e = some em →
        oget em m = some mm →
        oget mm k = some lm →
        oget lm i = some r →
        r.eventId = e ∧ r.marketId = m ∧ r.lineKey = k ∧ r.internalId = i) ∧
    (∀ e, ∀ r ∈ getEventSelections (buildFromTreeData td) e, r.eventId = e) ∧
    (∀ e m, ∀ r ∈ getMarketSelections (buildFromTreeData td) e m,
        r.eventId = e ∧ r.marketId = m) := by
  have hc := buildFromTreeData_cache_ok td
  refine ⟨?_, ?_, ?_⟩
  · intro e em m mm k lm i r h1 h2 h3 h4
    have hrec := hc _ (oget_mem h1) _ (oget_mem h2) _ (oget_mem h3) _ (oget_mem h4)
    exact ⟨hrec.1, hrec.2.1, hrec.2.2.1, hrec.2.2.2.1⟩
  · intro e r hr
    unfold getEventSelections at hr
    cases ho : oget (buildFromTreeData td).cache e with
    | none => rw [ho] at hr; simp at hr
    | some em =>
        rw [ho] at hr
        simp only [List.mem_flatMap] at hr
        obtain ⟨mm, hmm, lm, hlm, hrlm⟩ := hr
        obtain ⟨m, hm⟩ := mem_ovalues hmm
        obtain ⟨k, hk⟩ := mem_ovalues hlm
        obtain ⟨i, hi⟩ := mem_ovalues hrlm
        exact (hc _ (oget_mem ho) _ hm _ hk _ hi).1
  · intro e m r hr
    unfold getMarketSelections at hr
    cases ho1 : oget (buildFromTreeData td).cache e with
    | none => rw [ho1] at hr; simp at hr
    | some em =>
        cases ho2 : oget em m with
        | none => rw [ho1] at hr; simp only [Option.some_bind, ho2] at hr; simp at hr
        | some mm =>
            rw [ho1] at hr
            simp only [Option.some_bind, ho2, List.mem_flatMap] at hr
            obtain ⟨lm, hlm, hrlm⟩ := hr
            obtain ⟨k, hk⟩ := mem_ovalues hlm
            obtain ⟨i, hi⟩ := mem_ovalues hrlm
            have hrec := hc _ (oget_mem ho1) _ (oget_mem ho2) _ hk _ hi
            exact ⟨hrec.1, hrec.2.1⟩

/-- Witness for C9 on `sampleTree`: the record enumerated for event `e1`
indeed carries `eventId = "e1"`. -/
theorem c9_record_position_consistency_witness :
    sampleRecord ∈ getEventSelections (buildFromTreeData sampleTree) "e1" ∧
    sampleRecord.eventId = "e1" :=
  ⟨by decide,
    (c9_record_position_consistency sampleTree).2.1 "e1" sampleRecord (by decide)⟩

/-! ## Claim C2: selections without an external id never reach the index -/

/-- C2: every record placed in the four-level map or the flat external-id
map has a nonempty external line id (`selection.data?.line_id ||
selection.id` in the source), and rebuilding from a tree whose ineligible
selection nodes were removed yields exactly the same state — an
ineligible selection influences nothing, it is only counted in
diagnostics.  Hence no such selection appears in `flattenSelectionCache`,
`getEventSelections` or `getMarketSelections`. -/
theorem c2_ineligible_never_indexed (td : List TreeNode) :
    (∀ r ∈ flattenSelectionCache (buildFromTreeData td), r.line_id ≠ "") ∧
    (∀ k r, oget (buildFromTreeData td).line_idIndex k = some r →
        r.line_id = k ∧ r.line_id ≠ "" ∧ r ∈ eligibleRecords td) ∧
    buildFromTreeData (removeIneligible td) = buildFromTreeData td ∧
    (∀ e, ∀ r ∈ getEventSelections (buildFromTreeData td) e, r.line_id ≠ "") ∧
    (∀ e m, ∀ r ∈ getMarketSelections (buildFromTreeData td) e m,
        r.line_id ≠ "") := by
  have hc := buildFromTreeData_cache_ok td
  refine ⟨?_, ?_, buildFromTreeData_removeIneligible td, ?_, ?_⟩
  · intro r hr
    unfold flattenSelectionCache at hr
    simp only [List.mem_flatMap] at hr
    obtain ⟨em, hem, mm, hmm, lm, hlm, hrlm⟩ := hr
    obtain ⟨e, he⟩ := mem_ovalues hem
    obtain ⟨m, hm⟩ := mem_ovalues hmm
    obtain ⟨k, hk⟩ := mem_ovalues hlm
    obtain ⟨i, hi⟩ := mem_ovalues hrlm
    exact (hc _ he _ hm _ hk _ hi).2.2.2.2
  · intro k r hkr
    have hmem := oget_mem hkr
    rw [buildFromTreeData_idx] at hmem
    have halign : (eligibleRecords td).foldl osetR [] =
        (eligibleRecords td).foldl
          (fun acc a => oset acc (SelectionRecord.line_id a) a) [] := rfl
    rw [halign] at hmem
    rcases mem_foldl_oset SelectionRecord.line_id (eligibleRecords td) [] hmem with
      h | ⟨a, ha, heq⟩
    · simp at h
    · obtain ⟨hk1, hk2⟩ := Prod.ext_iff.mp heq
      dsimp only at hk1 hk2
      subst hk1
      subst hk2
      exact ⟨rfl, eligibleRecords_lineId ha, ha⟩
  · intro e r hr
    unfold getEventSelections at hr
    cases ho : oget (buildFromTreeData td).cache e with
    | none => rw [ho] at hr; simp at hr
    | some em =>
        rw [ho] at hr
        simp only [List.mem_flatMap] at hr
        obtain ⟨mm, hmm, lm, hlm, hrlm⟩ := hr
        obtain ⟨m, hm⟩ := mem_ovalues hmm
        obtain ⟨k, hk⟩ := mem_ovalues hlm
        obtain ⟨i, hi⟩ := mem_ovalues hrlm
        exact (hc _ (oget_mem ho) _ hm _ hk _ hi).2.2.2.2
  · intro e m r hr
    unfold getMarketSelections at hr
    cases ho1 : oget (buildFromTreeData td).cache e with
    | none => rw [ho1] at hr; simp at hr
    | some em =>
        cases ho2 : oget em m with
        | none => rw [ho1] at hr; simp only [Option.some_bind, ho2] at hr; simp at hr
        | some mm =>
            rw [ho1] at hr
            simp only [Option.some_bind, ho2, List.mem_flatMap] at hr
            obtain ⟨lm, hlm, hrlm⟩ := hr
            obtain ⟨k, hk⟩ := mem_ovalues hlm
            obtain ⟨i, hi⟩ := mem_ovalues hrlm
            exact (hc _ (oget_mem ho1) _ (oget_mem ho2) _ hk _ hi).2.2.2.2

/-- Witness for C2 on `sampleTree` (which contains the ineligible
`selNodeBad`): the eligible record is enumerated and carries a nonempty
external id. -/
theorem c2_ineligible_never_indexed_witness :
    sampleRecord ∈ flattenSelectionCache (buildFromTreeData sampleTree) ∧
    sampleRecord.line_id ≠ "" :=
  ⟨by decide, (c2_ineligible_never_indexed sampleTree).1 sampleRecord (by decide)⟩

/-! ## Claim C5: per-group deduplication by identity key -/

theorem mem_keys_oset {α : Type} {m : OMap α} {k k' : String} {v : α}
    (h : k' ∈ (oset m k v).map (·.1)) : k' ∈ m.map (·.1) ∨ k' = k := by
  simp only [List.mem_map] at h
  obtain ⟨p, hp, hk⟩ := h
  rcases mem_oset hp with hp' | hp'
  · exact Or.inl (by exact List.mem_map.mpr ⟨p, hp', hk⟩)
  · right
    rw [← hk, hp']

theorem nodup_keys_oset {α : Type} {m : OMap α}
    (h : (m.map (·.1)).Nodup) (k : String) (v : α) :
    ((oset m k v).map (·.1)).Nodup := by
  induction m with
  | nil => simp [oset]
  | cons p m ih =>
      obtain ⟨k₀, v₀⟩ := p
      simp only [List.map_cons, List.nodup_cons] at h
      by_cases hk : k₀ = k
      · simpa [oset, hk, List.nodup_cons] using h
      · simp only [oset, hk, if_neg, if_false, List.map_cons, List.nodup_cons]
        refine ⟨?_, ih h.2⟩
        intro hmem
        rcases mem_keys_oset hmem with h' | h'
        · exact h.1 h'
        · exact hk h'

theorem nodup_keys_buildKeyMap (l : List RawSel) :
    ((buildKeyMap l).map (·.1)).Nodup := by
  unfold buildKeyMap
  exact foldl_preserves _ (fun m : OMap RawSel => (m.map (·.1)).Nodup)
    (fun m s hm => nodup_keys_oset hm (selKey s) s) l [] (by simp)

theorem mem_buildKeyMap {l : List RawSel} {p : String × RawSel}
    (h : p ∈ buildKeyMap l) : p.1 = selKey p.2 ∧ p.2 ∈ l := by
  unfold buildKeyMap at h
  rcases mem_foldl_oset selKey l [] h with h | ⟨a, ha, heq⟩
  · simp at h
  · rw [heq]
    exact ⟨rfl, ha⟩

theorem mem_of_nodup_oget {α : Type} {m : OMap α} {k : String} {v : α}
    (hn : (m.map (·.1)).Nodup) (h : (k, v) ∈ m) : oget m k = some v := by
  induction m with
  | nil => simp at h
  | cons p m ih =>
      obtain ⟨k₀, v₀⟩ := p
      simp only [List.map_cons, List.nodup_cons] at hn
      rcases List.mem_cons.mp h with h' | h'
      · obtain ⟨rfl, rfl⟩ := Prod.mk.injEq .. |>.mp h'.symm
        simp [oget]
      · have hk : k₀ ≠ k := by
          intro hkk
          subst hkk
          exact hn.1 (List.mem_map.mpr ⟨(k₀, v), h', rfl⟩)
        simp only [oget, hk, if_neg, if_false]
        exact ih hn.2 h'

theorem oget_buildKeyMap (l : List RawSel) (k : String) :
    oget (buildKeyMap l) k =
      match lastWith (fun s => selKey s == k) l with
      | some s => some s
      | none => none := by
  unfold buildKeyMap
  rw [oget_foldl_oset]
  cases lastWith (fun s => selKey s == k) l <;> simp [oget]

theorem lastWith_some_sat {α : Type} {p : α → Bool} {l : List α} {a : α}
    (h : lastWith p l = some a) : p a = true ∧ a ∈ l := by
  induction l with
  | nil => simp [lastWith] at h
  | cons b l ih =>
      simp only [lastWith] at h
      cases hl : lastWith p l with
      | some r =>
          rw [hl] at h
          obtain rfl : r = a := by simpa using h
          exact ⟨(ih hl).1, by simp [(ih hl).2]⟩
      | none =>
          rw [hl] at h
          by_cases hb : p b
          · simp only [hb, if_pos, if_true] at h
            obtain rfl : b = a := by simpa using h
            exact ⟨hb, by simp⟩
          · simp [hb] at h

/-- C5 counterexample: two records share the identity key `"A"`; the
deduplicated group keeps the **later** record (at the earlier record's
position), not the earlier one as the claim states. -/
theorem c5_counterexample_later_kept :
    jsMapDedup
        [{ line_id := some "A", odds := some 2 },
         { line_id := some "A", odds := some 3 }] =
      [{ line_id := some "A", odds := some 3 }] ∧
    ({ line_id := some "A", odds := some 3 } : RawSel) ≠
      { line_id := some "A", odds := some 2 } := by
  constructor <;> decide

/-- C5 (amended): within each merged group, records are deduplicated by
the identity key (`line_id` when present — nullish coalescing — else the
name/display-name/odds/line composite); when several records share a key
the **later** record overwrites the earlier ones and is the one kept, at
the position of the key's first occurrence: a record survives `jsMapDedup`
exactly when it is the last record of the group carrying its key. -/
theorem c5_dedup_keeps_last (l : List RawSel) (s : RawSel) :
    s ∈ jsMapDedup l ↔ lastWith (fun t => selKey t == selKey s) l = some s := by
  constructor
  · intro h
    obtain ⟨k, hk⟩ := mem_ovalues h
    obtain ⟨hkey, -⟩ := mem_buildKeyMap hk
    dsimp only at hkey
    subst hkey
    have hg := mem_of_nodup_oget (nodup_keys_buildKeyMap l) hk
    rw [oget_buildKeyMap] at hg
    cases hl : lastWith (fun t => selKey t == selKey s) l with
    | some r => rw [hl] at hg; exact hg
    | none => rw [hl] at hg; simp at hg
  · intro h
    have hg : oget (buildKeyMap l) (selKey s) = some s := by
      rw [oget_buildKeyMap, h]
    have hm := oget_mem hg
    exact List.mem_map.mpr ⟨(selKey s, s), hm, rfl⟩

/-! ## Claim C6: the line-layer decision -/

theorem lineLayerStep_foldl_ok (marketId : String) :
    ∀ (groups : List NormalizedSelectionGroup) (acc : List TreeNode),
      (∀ c ∈ acc, c.type = .category ∧ c.children ≠ [] ∧
        ∀ cc ∈ c.children, cc.type = .selection) →
      ∀ c ∈ groups.foldl (lineLayerStep marketId) acc,
        c.type = .category ∧ c.children ≠ [] ∧
          ∀ cc ∈ c.children, cc.type = .selection := by
  intro groups
  induction groups with
  | nil => intro acc h; simpa using h
  | cons g gs ih =>
      intro acc h
      simp only [List.foldl_cons]
      apply ih
      intro c hc
      simp only [lineLayerStep] at hc
      split at hc
      · rcases List.mem_append.mp hc with hc' | hc'
        · exact h c hc'
        · obtain rfl : c = TreeNode.mk (lineNodeId marketId g.line)
              (lineNodeName g.line) .category none
              (g.selections.filterMap fun sel =>
                if eligibleForNode sel = true then
                  some (mkSelectionNode marketId
                    (sel.line.orElse fun _ => g.line) sel)
                else none) := by simpa using hc'
          refine ⟨rfl, ?_, ?_⟩
          · show g.selections.filterMap _ ≠ []
            intro hnil
            rename_i hlen
            rw [hnil] at hlen
            simp at hlen
          · intro cc hcc
            obtain ⟨sel, -, hsel⟩ := List.mem_filterMap.mp hcc
            by_cases he : eligibleForNode sel
            · rw [if_pos he] at hsel
              obtain rfl : mkSelectionNode marketId
                  (sel.line.orElse fun _ => g.line) sel = cc := by
                simpa using hsel
              rfl
            · rw [if_neg he] at hsel
              exact absurd hsel (by simp)
      · exact h c hc

theorem lineLayerStep_foldl_ne_nil (marketId : String) :
    ∀ (groups : List NormalizedSelectionGroup) (acc : List TreeNode),
      (acc ≠ [] ∨ ∃ g ∈ groups, ∃ s ∈ g.selections, eligibleForNode s = true) →
      groups.foldl (lineLayerStep marketId) acc ≠ [] := by
  intro groups
  induction groups with
  | nil =>
      intro acc h
      rcases h with h | ⟨g, hg, -⟩
      · simpa using h
      · simp at hg
  | cons g gs ih =>
      intro acc h
      simp only [List.foldl_cons]
      apply ih
      rcases h with hacc | ⟨g', hg', s, hs, hel⟩
      · left
        simp only [lineLayerStep]
        split
        · simp
        · exact hacc
      · rcases List.mem_cons.mp hg' with rfl | hg'
        · left
          simp only [lineLayerStep]
          have hkid : mkSelectionNode marketId (s.line.orElse fun _ => g'.line) s ∈
              g'.selections.filterMap fun sel =>
                if eligibleForNode sel = true then
                  some (mkSelectionNode marketId
                    (sel.line.orElse fun _ => g'.line) sel)
                else none :=
            List.mem_filterMap.mpr ⟨s, hs, by rw [if_pos hel]⟩
          rw [if_pos (by
            simpa using List.length_pos.mpr (List.ne_nil_of_mem hkid))]
          simp
        · right
          exact ⟨g', hg', s, hs, hel⟩

/-- C6: a market's children contain a line sub-layer exactly according to
the merged, deduplicated group count: with at most one group every child
of the market node is a selection node (no line layer); with more than
one group every child is a `category`-typed line node with a nonempty
list of selection-node children, and at least one line node is
materialized whenever any group holds a selection passing the node guard
(so every selection sits behind the line layer). -/
theorem c6_line_layer_decision (marketId marketName : String)
    (rawGroups : List NormalizedSelectionGroup) :
    ((mergedDedupedGroups marketName rawGroups).length ≤ 1 →
      ∀ c ∈ buildMarketChildren marketId marketName rawGroups,
        c.type = .selection) ∧
    (1 < (mergedDedupedGroups marketName rawGroups).length →
      (∀ c ∈ buildMarketChildren marketId marketName rawGroups,
        c.type = .category ∧ c.children ≠ [] ∧
          ∀ cc ∈ c.children, cc.type = .selection) ∧
      ((∃ g ∈ mergedDedupedGroups marketName rawGroups,
          ∃ s ∈ g.selections, eligibleForNode s = true) →
        buildMarketChildren marketId marketName rawGroups ≠ [])) := by
  constructor
  · intro hle c hc
    simp only [buildMarketChildren] at hc
    have h1 : ¬(mergedDedupedGroups marketName rawGroups).length > 1 := by omega
    by_cases h0 : (mergedDedupedGroups marketName rawGroups).length > 0
    · rw [if_pos h0, if_neg h1] at hc
      obtain ⟨sel, -, rfl⟩ := List.mem_map.mp hc
      rfl
    · rw [if_neg h0] at hc
      simp at hc
  · intro hgt
    constructor
    · intro c hc
      simp only [buildMarketChildren] at hc
      rw [if_pos (by omega), if_pos hgt] at hc
      exact lineLayerStep_foldl_ok marketId _ [] (by simp) c hc
    · intro hex
      simp only [buildMarketChildren]
      rw [if_pos (by omega), if_pos hgt]
      exact lineLayerStep_foldl_ne_nil marketId _ [] (Or.inr hex)

/-- Witness for C6: a `Run Line` market with two distinct lines gets a
line sub-layer of `category` nodes over its selections. -/
theorem c6_line_layer_decision_witness :
    1 < (mergedDedupedGroups "Run Line" sampleSpreadGroups).length ∧
    ((∀ c ∈ buildMarketChildren "7" "Run Line" sampleSpreadGroups,
        c.type = .category ∧ c.children ≠ [] ∧
          ∀ cc ∈ c.children, cc.type = .selection) ∧
      ((∃ g ∈ mergedDedupedGroups "Run Line" sampleSpreadGroups,
          ∃ s ∈ g.selections, eligibleForNode s = true) →
        buildMarketChildren "7" "Run Line" sampleSpreadGroups ≠ [])) :=
  ⟨by decide,
    (c6_line_layer_decision "7" "Run Line" sampleSpreadGroups).2 (by decide)⟩

/-! ## Claim C7: 401 handling in the retry loop -/

/-- C7 counterexample: a request whose first fetch gets a 401 and whose
refresh attempt **fails** (scripted `none`) does not fail with an auth
error — the thrown auth error is caught by the generic retry handler,
the request is retried (with the old token) and succeeds; moreover two
401s in one logical request trigger **two** refresh attempts, not
exactly one. -/
theorem c7_counterexample_refresh_retry :
    runAttempts false "t0" [.unauthorized, .ok "payload"] [none] 0 =
      ⟨.success "payload", 1, ["t0", "t0"]⟩ ∧
    runAttempts false "t0" [.unauthorized, .unauthorized, .ok "v"]
        [some "t1", some "t2"] 0 =
      ⟨.success "v", 2, ["t0", "t1", "t2"]⟩ := by
  constructor <;> decide

theorem runAttempts_refreshCalls_le (rl : Bool) :
    ∀ (resps : List HttpResp) (t : String) (refreshes : List (Option String))
      (a : Nat),
      (runAttempts rl t resps refreshes a).refreshCalls ≤ maxAttempts - a := by
  have hm : maxAttempts = 3 := rfl
  intro resps
  induction resps with
  | nil =>
      intro t refreshes a
      unfold runAttempts
      split <;> simp
  | cons r rest ih =>
      intro t refreshes a
      by_cases ha : a < maxAttempts
      · cases r with
        | ok body =>
            rw [runAttempts, if_pos ha]
            simp
        | tooManyRequests =>
            rw [runAttempts, if_pos ha]
            have := ih t refreshes (a + 1)
            dsimp only
            omega
        | unauthorized =>
            cases rl with
            | true =>
                rw [runAttempts.eq_def, if_pos ha]
                dsimp only
                rw [if_pos (rfl : true = true)]
                by_cases hfin : a = maxAttempts - 1
                · rw [if_pos hfin]
                  simp
                · rw [if_neg hfin]
                  have := ih t refreshes (a + 1)
                  dsimp only
                  omega
            | false =>
                rw [runAttempts.eq_def, if_pos ha]
                dsimp only
                rw [if_neg (by decide : ¬(false = true))]
                cases refreshes with
                | nil =>
                    by_cases hfin : a = maxAttempts - 1
                    · rw [if_pos hfin]
                      dsimp only
                      omega
                    · rw [if_neg hfin]
                      have := ih t [] (a + 1)
                      dsimp only
                      omega
                | cons o rTail =>
                    cases o with
                    | some t' =>
                        have := ih t' rTail (a + 1)
                        dsimp only
                        omega
                    | none =>
                        dsimp only
                        by_cases hfin : a = maxAttempts - 1
                        · rw [if_pos hfin]
                          dsimp only
                          omega
                        · rw [if_neg hfin]
                          have := ih t rTail (a + 1)
                          dsimp only
                          omega
        | serverError =>
            rw [runAttempts.eq_def, if_pos ha]
            dsimp only
            by_cases hfin : a = maxAttempts - 1
            · rw [if_pos hfin]
              simp
            · rw [if_neg hfin]
              have := ih t refreshes (a + 1)
              dsimp only
              omega
      · rw [runAttempts.eq_def, if_neg ha]
        simp

/-- C7 (amended): within one logical request, **each** 401 response seen
with a free refresh lock triggers a token-refresh attempt followed by a
retry with the refreshed credential, up to the 3-attempt budget — so up
to 3 refresh attempts can occur, not exactly one; a failed refresh
attempt is caught by the generic retry handler and the request is
retried, failing with the auth error exactly when the refresh failure
happens on the final attempt. -/
theorem c7_refresh_retry_amended :
    (∀ (t t' : String) (rest : List HttpResp) (rtl : List (Option String))
        (a : Nat), a < maxAttempts →
      runAttempts false t (.unauthorized :: rest) (some t' :: rtl) a =
        ⟨(runAttempts false t' rest rtl (a + 1)).result,
         (runAttempts false t' rest rtl (a + 1)).refreshCalls + 1,
         t :: (runAttempts false t' rest rtl (a + 1)).tokensUsed⟩) ∧
    (∀ (t : String) (rest : List HttpResp) (rtl : List (Option String))
        (a : Nat), a < maxAttempts → a ≠ maxAttempts - 1 →
      runAttempts false t (.unauthorized :: rest) (none :: rtl) a =
        ⟨(runAttempts false t rest rtl (a + 1)).result,
         (runAttempts false t rest rtl (a + 1)).refreshCalls + 1,
         t :: (runAttempts false t rest rtl (a + 1)).tokensUsed⟩) ∧
    (∀ (t : String) (rest : List HttpResp) (rtl : List (Option String)),
      runAttempts false t (.unauthorized :: rest) (none :: rtl)
          (maxAttempts - 1) =
        ⟨.failure .authExpiredRefreshFailed, 1, [t]⟩) ∧
    (∀ (t : String) (resps : List HttpResp) (refreshes : List (Option String)),
      (runAttempts false t resps refreshes 0).refreshCalls ≤ maxAttempts) := by
  refine ⟨?_, ?_, ?_, ?_⟩
  · intro t t' rest rtl a ha
    conv_lhs => rw [runAttempts]
    rw [if_pos ha]
    dsimp only
    rw [if_neg (by decide : ¬(false = true))]
  · intro t rest rtl a ha hane
    conv_lhs => rw [runAttempts]
    rw [if_pos ha]
    dsimp only
    rw [if_neg (by decide : ¬(false = true)), if_neg hane]
  · intro t rest rtl
    conv_lhs => rw [runAttempts]
    rw [if_pos (by decide : maxAttempts - 1 < maxAttempts)]
    dsimp only
    rw [if_neg (by decide : ¬(false = true)),
      if_pos (rfl : maxAttempts - 1 = maxAttempts - 1)]
  · intro t resps refreshes
    simpa using runAttempts_refreshCalls_le false resps t refreshes 0

/-- Witness for C7 (amended) at a concrete 401-then-success script. -/
theorem c7_refresh_retry_amended_witness :
    0 < maxAttempts ∧
    runAttempts false "t0" (.unauthorized :: [.ok "v"]) (some "t1" :: []) 0 =
      ⟨(runAttempts false "t1" [.ok "v"] [] 1).result,
       (runAttempts false "t1" [.ok "v"] [] 1).refreshCalls + 1,
       "t0" :: (runAttempts false "t1" [.ok "v"] [] 1).tokensUsed⟩ :=
  ⟨by decide, c7_refresh_retry_amended.1 "t0" "t1" [.ok "v"] [] 0 (by decide)⟩

/-! ## Claim C8: bounded concurrency and FIFO admission -/

theorem QStep_preserves_inv {s s' : QState} (h : QStep s s') (hi : QInv s) :
    QInv s' := by
  cases h with
  | submit w r n adm =>
      obtain ⟨h1, h2, h3⟩ := hi
      have h1' : r ≤ maxConcurrency := h1
      have h2' : List.Sorted (· < ·) (adm ++ w) := h2
      have h3' : ∀ x ∈ adm ++ w, x < n := h3
      refine ⟨h1', ?_, ?_⟩
      · show List.Sorted (· < ·) (adm ++ (w ++ [n]))
        rw [← List.append_assoc]
        refine List.pairwise_append.mpr ⟨h2', by simp, ?_⟩
        intro x hx y hy
        simp only [List.mem_singleton] at hy
        subst hy
        exact h3' x hx
      · show ∀ x ∈ adm ++ (w ++ [n]), x < n + 1
        intro x hx
        rw [← List.append_assoc] at hx
        rcases List.mem_append.mp hx with hx' | hx'
        · have := h3' x hx'
          omega
        · simp only [List.mem_singleton] at hx'
          omega
  | start t w r n adm hlt =>
      obtain ⟨h1, h2, h3⟩ := hi
      have h2' : List.Sorted (· < ·) (adm ++ t :: w) := h2
      have h3' : ∀ x ∈ adm ++ t :: w, x < n := h3
      refine ⟨?_, ?_, ?_⟩
      · show r + 1 ≤ maxConcurrency
        omega
      · show List.Sorted (· < ·) ((adm ++ [t]) ++ w)
        simpa [List.append_assoc] using h2'
      · show ∀ x ∈ (adm ++ [t]) ++ w, x < n
        intro x hx
        apply h3'
        simpa [List.append_assoc] using hx
  | finish w r n adm =>
      obtain ⟨h1, h2, h3⟩ := hi
      have h1' : r + 1 ≤ maxConcurrency := h1
      refine ⟨?_, h2, h3⟩
      show r ≤ maxConcurrency
      omega

theorem QReachable_inv {s : QState} (h : QReachable s) : QInv s := by
  induction h with
  | refl =>
      refine ⟨by simp [QInit, maxConcurrency], by simp [QInit], ?_⟩
      intro x hx
      simp [QInit] at hx
  | tail hs hstep ih => exact QStep_preserves_inv hstep ih

/-- C8: in every reachable state of the request queue's step relation, at
most `maxConcurrency = 3` tasks run simultaneously, and the
admitted-then-waiting task sequence is strictly increasing in submission
order — tasks are admitted in FIFO submission order and the waiting
tasks all follow every admitted task. -/
theorem c8_bounded_concurrency_fifo (s : QState) (h : QReachable s) :
    s.running ≤ maxConcurrency ∧
    List.Sorted (· < ·) (s.admitted ++ s.waiting) :=
  ⟨(QReachable_inv h).1, (QReachable_inv h).2.1⟩

/-- Witness for C8: submit two tasks, start the first — the reached state
runs one task (≤ 3) and the admission order respects submission order. -/
theorem c8_bounded_concurrency_fifo_witness :
    QReachable ⟨[1], 1, 2, [0]⟩ ∧
    ((QState.mk [1] 1 2 [0]).running ≤ maxConcurrency ∧
      List.Sorted (· < ·)
        ((QState.mk [1] 1 2 [0]).admitted ++ (QState.mk [1] 1 2 [0]).waiting)) := by
  have h1 : QStep QInit ⟨[0], 0, 1, []⟩ := QStep.submit [] 0 0 []
  have h2 : QStep ⟨[0], 0, 1, []⟩ ⟨[0, 1], 0, 2, []⟩ := QStep.submit [0] 0 1 []
  have h3 : QStep ⟨[0, 1], 0, 2, []⟩ ⟨[1], 1, 2, [0]⟩ :=
    QStep.start 0 [1] 0 2 [] (by simp [maxConcurrency])
  have hreach : QReachable ⟨[1], 1, 2, [0]⟩ :=
    Relation.ReflTransGen.tail
      (Relation.ReflTransGen.tail
        (Relation.ReflTransGen.tail Relation.ReflTransGen.refl h1) h2) h3
  exact ⟨hreach, c8_bounded_concurrency_fifo _ hreach⟩

end PXDE
